import Mathlib

/-!
Verification of the Morse codec in src/morse3.cpp.

Strings are modelled as List Char.  Sample values are modelled as Int
(the program instantiates WavProcessor<> with the template default
SampleType = int8_t, so MAX_AMP = 127).  Durations computed by the C++
code in IEEE double are modelled by the exact integer/rational values
they produce; every such constant is justified in a comment at its
definition site.
-/

/-- The character ↔ pattern table of MorseConverter::initMaps (morse3.cpp:53-62),
in source order.  Keys and patterns are pairwise distinct, so association-list
lookup models std::map lookup. -/
def mappings : List (Char × List Char) :=
  [ ('A', ".-".toList), ('B', "-...".toList), ('C', "-.-.".toList),
    ('D', "-..".toList), ('E', ".".toList),
    ('F', "..-.".toList), ('G', "--.".toList), ('H', "....".toList),
    ('I', "..".toList), ('J', ".---".toList),
    ('K', "-.-".toList), ('L', ".-..".toList), ('M', "--".toList),
    ('N', "-.".toList), ('O', "---".toList),
    ('P', ".--.".toList), ('Q', "--.-".toList), ('R', ".-.".toList),
    ('S', "...".toList), ('T', "-".toList),
    ('U', "..-".toList), ('V', "...-".toList), ('W', ".--".toList),
    ('X', "-..-".toList), ('Y', "-.--".toList),
    ('Z', "--..".toList), ('0', "-----".toList), ('1', ".----".toList),
    ('2', "..---".toList), ('3', "...--".toList),
    ('4', "....-".toList), ('5', ".....".toList), ('6', "-....".toList),
    ('7', "--...".toList), ('8', "---..".toList),
    ('9', "----.".toList), ('.', ".-.-.-".toList), (',', "--..--".toList),
    ('?', "..--..".toList), (' ', "   ".toList) ]

/-- charToMorse lookup: the unique pattern stored under key c. -/
def lookupPat (c : Char) : Option (List Char) :=
  (mappings.find? (fun e => e.1 == c)).map (·.2)

/-- morseToChar lookup: the unique character stored under a pattern. -/
def lookupChar (p : List Char) : Option Char :=
  (mappings.find? (fun e => e.2 == p)).map (·.1)

/-- std::toupper in the default locale, on the ASCII inputs the program deals
with: lowercase Latin letters are folded, everything else is unchanged. -/
def toUpperC (c : Char) : Char :=
  if 'a' ≤ c ∧ c ≤ 'z' then Char.ofNat (c.toNat - 32) else c

/-- A character the encoder accepts: its uppercased form is a key of the table. -/
def validChar (c : Char) : Bool := (lookupPat (toUpperC c)).isSome

/-- The error thrown by MorseConverter::encode (morse3.cpp:87). -/
inductive MorseErr where
  | unsupportedChar (c : Char)
deriving DecidableEq, Repr

/-- The inter-word gap marker: three consecutive spaces. -/
def sp3 : List Char := [' ', ' ', ' ']

/-- The loop of MorseConverter::encode (morse3.cpp:74-93): state is the
accumulated morse string and the prev_was_space flag.  Throwing the exception
is modelled by returning .error, which by construction discards the
accumulator (the C++ local `morse` dies when the exception propagates). -/
def encodeLoop : List Char → List Char → Bool → Except MorseErr (List Char)
  | [], morse, _ => .ok morse
  | c :: rest, morse, prevSp =>
    let u := toUpperC c
    if u = ' ' then
      encodeLoop rest (morse ++ sp3) true
    else
      let m := if !morse.isEmpty && !prevSp then morse ++ [' '] else morse
      match lookupPat u with
      | some p => encodeLoop rest (m ++ p) false
      | none => .error (MorseErr.unsupportedChar u)

/-- MorseConverter::encode. -/
def encode (text : List Char) : Except MorseErr (List Char) :=
  encodeLoop text [] false

/-- The word splitter of MorseConverter::decode (morse3.cpp:97-103):
repeatedly cut at the leftmost occurrence of three consecutive spaces,
dropping the three-space separator; the final (possibly empty) remainder is
always kept.  A left-to-right scan that cuts at the first position where
three spaces start is exactly std::string::find's leftmost match. -/
def split3 : List Char → List (List Char)
  | ' ' :: ' ' :: ' ' :: rest => [] :: split3 rest
  | c :: rest =>
    match split3 rest with
    | [] => [[c]]
    | w :: ws => (c :: w) :: ws
  | [] => [[]]

/-- The whitespace set of operator>> on an istringstream (default C locale). -/
def isWsC (c : Char) : Bool :=
  c == ' ' || c == '\t' || c == '\n' || c == '\x0b' || c == '\x0c' || c == '\r'

/-- Helper for `tokens`: cur is the (possibly empty) non-whitespace run read
so far. -/
def tokensAux (cur : List Char) : List Char → List (List Char)
  | [] => if cur = [] then [] else [cur]
  | c :: rest =>
    if isWsC c then
      if cur = [] then tokensAux [] rest else cur :: tokensAux [] rest
    else tokensAux (cur ++ [c]) rest

/-- Tokenisation by iss >> token (morse3.cpp:106-108): the maximal nonempty
runs of non-whitespace characters, in order. -/
def tokens (l : List Char) : List (List Char) := tokensAux [] l

/-- Decoding of one word segment (morse3.cpp:106-111): look every token up,
silently dropping tokens that are not in the table. -/
def decodeWord (w : List Char) : List Char :=
  (tokens w).filterMap lookupChar

/-- The word join of MorseConverter::decode (morse3.cpp:105-114): a single
space is pushed after every word except the last. -/
def joinWords : List (List Char) → List Char
  | [] => []
  | [w] => w
  | w :: ws => w ++ ' ' :: joinWords ws

/-- MorseConverter::decode. -/
def decode (morse : List Char) : List Char :=
  joinWords ((split3 morse).map decodeWord)

/-- The payload of a successful encode, defaulting to the empty string. -/
def okOr (x : Except MorseErr (List Char)) : List Char :=
  match x with
  | .ok m => m
  | .error _ => []

/-- The pattern of a table key (total version; only applied to keys). -/
def patOf (c : Char) : List Char := (lookupPat c).getD []

/-- The morse string a whole word (a run of characters whose uppercased forms
are non-space table keys) contributes: its patterns joined by single spaces. -/
def encW (w : List Char) : List Char :=
  joinWords (w.map (fun c => patOf (toUpperC c)))

/-- No two adjacent spaces occur in the list. -/
def noDbl : List Char → Bool
  | [] => true
  | [_] => true
  | c :: d :: rest => !(c == ' ' && d == ' ') && noDbl (d :: rest)

/-- A legal istringstream token: nonempty, no whitespace characters. -/
def nonWsTok (t : List Char) : Bool :=
  !t.isEmpty && t.all (fun c => !isWsC c)

/- ###################  Finite facts about the symbol table  ################ -/

theorem mappings_pats_nonempty : ∀ e ∈ mappings, e.2 ≠ [] := by decide

theorem mappings_pats_symbols :
    ∀ e ∈ mappings, e.1 ≠ ' ' → ∀ c ∈ e.2, c = '.' ∨ c = '-' := by decide

theorem mappings_inverse : ∀ e ∈ mappings, lookupChar e.2 = some e.1 := by decide

theorem lookupPat_mem {c : Char} {p : List Char} (h : lookupPat c = some p) :
    (c, p) ∈ mappings := by
  unfold lookupPat at h
  rcases hf : mappings.find? (fun e => e.1 == c) with _ | e
  · simp [hf] at h
  · have hm := List.mem_of_find?_eq_some hf
    have hp := List.find?_some hf
    rw [hf] at h
    rcases e with ⟨e1, e2⟩
    simp at h hp
    subst h
    subst hp
    exact hm

theorem lookupChar_patOf {c : Char} {p : List Char} (h : lookupPat c = some p) :
    lookupChar p = some c := by
  exact mappings_inverse _ (lookupPat_mem h)

theorem patOf_ne_nil {c : Char} {p : List Char} (h : lookupPat c = some p) :
    p ≠ [] := mappings_pats_nonempty _ (lookupPat_mem h)

theorem patOf_symbols {c : Char} {p : List Char} (h : lookupPat c = some p)
    (hc : c ≠ ' ') : ∀ d ∈ p, d = '.' ∨ d = '-' :=
  mappings_pats_symbols _ (lookupPat_mem h) hc

theorem patOf_not_ws {c : Char} {p : List Char} (h : lookupPat c = some p)
    (hc : c ≠ ' ') : ∀ d ∈ p, isWsC d = false := by
  intro d hd
  rcases patOf_symbols h hc d hd with h1 | h1 <;> simp [h1, isWsC]

/- ###################  split3  ################ -/

/-- Conditional unfolding of split3: a cut happens exactly when the current
position starts with three spaces. -/
theorem split3_cons (c : Char) (rest : List Char) :
    split3 (c :: rest) =
      if c = ' ' ∧ rest.take 2 = [' ', ' '] then [] :: split3 (rest.drop 2)
      else
        match split3 rest with
        | [] => [[c]]
        | w :: ws => (c :: w) :: ws := by
  rcases rest with _ | ⟨d, _ | ⟨e, r⟩⟩
  · by_cases hc : c = ' ' <;> simp [split3, hc]
  · by_cases hc : c = ' ' <;> by_cases hd : d = ' ' <;>
      simp [split3, hc, hd]
  · by_cases hc : c = ' ' <;> by_cases hd : d = ' ' <;> by_cases he : e = ' ' <;>
      simp [split3, hc, hd, he]

theorem split3_ne_nil (l : List Char) : split3 l ≠ [] := by
  rcases l with _ | ⟨c, rest⟩
  · simp [split3]
  · rw [split3_cons]
    split
    · simp
    · rcases hs : split3 rest with _ | ⟨w, ws⟩ <;> simp

theorem noDbl_cons_of_ne {c : Char} (l : List Char) (hc : c ≠ ' ') :
    noDbl (c :: l) = noDbl l := by
  rcases l with _ | ⟨d, r⟩ <;> simp [noDbl, hc]

theorem noDbl_tail {c : Char} {l : List Char} (h : noDbl (c :: l) = true) :
    noDbl l = true := by
  rcases l with _ | ⟨d, r⟩
  · simp [noDbl]
  · simp only [noDbl, Bool.and_eq_true] at h
    exact h.2

/-- A string with no two adjacent spaces is a single word segment. -/
theorem split3_single {a : List Char} (h : noDbl a = true) : split3 a = [a] := by
  induction a with
  | nil => simp [split3]
  | cons c rest ih =>
    rw [split3_cons]
    have hcut : ¬(c = ' ' ∧ rest.take 2 = [' ', ' ']) := by
      rintro ⟨hc, ht⟩
      rcases rest with _ | ⟨d, r⟩
      · simp at ht
      · have : d = ' ' := by
          rcases r with _ | ⟨e, r2⟩ <;> simp [List.take] at ht <;> tauto
        subst hc this
        simp [noDbl] at h
    rw [if_neg hcut, ih (noDbl_tail h)]

/-- Splitting cuts exactly at the first separator when the first segment is a
proper word: no double spaces inside and no trailing space. -/
theorem split3_append {a : List Char} (m : List Char) (h : noDbl a = true)
    (hl : a.getLast? ≠ some ' ') :
    split3 (a ++ (sp3 ++ m)) = a :: split3 m := by
  induction a with
  | nil =>
    show split3 (sp3 ++ m) = [] :: split3 m
    rfl
  | cons c rest ih =>
    rw [List.cons_append, split3_cons]
    split
    · next hcond =>
      exfalso
      rcases rest with _ | ⟨d, r⟩
      · exact hl (by simpa using hcond.1)
      · have hd : d = ' ' := by
          have := hcond.2
          rw [List.cons_append, List.take_succ_cons] at this
          exact (List.cons.injEq _ _ _ _).mp this |>.1
        rw [hcond.1, hd] at h
        simp [noDbl] at h
    · next hcond =>
      rcases rest with _ | ⟨d, r⟩
      · have e1 : split3 ([] ++ (sp3 ++ m)) = [] :: split3 m := rfl
        rw [e1]
      · have ih2 : split3 ((d :: r) ++ (sp3 ++ m)) = (d :: r) :: split3 m := by
          apply ih (noDbl_tail h)
          rw [← List.getLast?_cons_cons (a := c)]
          exact hl
        rw [ih2]

example : decode (okOr (encode "I HAVE 2 CUPS OF WATER.".toList))
    = "I HAVE 2 CUPS OF WATER.".toList := by decide

example : encode "ab".toList = .ok ".- -...".toList := rfl

example : decode "xyz .-".toList = "A".toList := by decide

/- ###################  tokens and joinWords  ################ -/

theorem nonWsTok_iff {t : List Char} :
    nonWsTok t = true ↔ t ≠ [] ∧ ∀ c ∈ t, isWsC c = false := by
  simp [nonWsTok, List.isEmpty_iff, List.all_eq_true]

theorem isWsC_space : isWsC ' ' = true := rfl

theorem ne_space_of_not_ws {c : Char} (h : isWsC c = false) : c ≠ ' ' := by
  intro hc
  rw [hc, isWsC_space] at h
  cases h

theorem tokensAux_nonws {p : List Char} (hp : ∀ c ∈ p, isWsC c = false) :
    ∀ cur l, tokensAux cur (p ++ l) = tokensAux (cur ++ p) l := by
  induction p with
  | nil => intro cur l; simp
  | cons c t ih =>
    intro cur l
    have hc : isWsC c = false := hp c (List.mem_cons_self c t)
    have ht : ∀ d ∈ t, isWsC d = false := fun d hd => hp d (List.mem_cons_of_mem c hd)
    show tokensAux cur (c :: (t ++ l)) = _
    rw [show tokensAux cur (c :: (t ++ l))
          = if isWsC c then (if cur = [] then tokensAux [] (t ++ l)
                             else cur :: tokensAux [] (t ++ l))
            else tokensAux (cur ++ [c]) (t ++ l) from rfl]
    rw [hc]
    simp only [Bool.false_eq_true, if_false]
    rw [ih ht (cur ++ [c]) l, ← List.append_cons]

theorem tokensAux_space (cur l : List Char) :
    tokensAux cur (' ' :: l)
      = if cur = [] then tokensAux [] l else cur :: tokensAux [] l := rfl

theorem joinWords_cons {x : List Char} {ts : List (List Char)} (h : ts ≠ []) :
    joinWords (x :: ts) = x ++ ' ' :: joinWords ts := by
  rcases ts with _ | ⟨y, r⟩
  · exact absurd rfl h
  · rfl

theorem tokens_joinWords {ts : List (List Char)}
    (h : ∀ t ∈ ts, nonWsTok t = true) : tokens (joinWords ts) = ts := by
  induction ts with
  | nil => rfl
  | cons t rest ih =>
    obtain ⟨htne, htc⟩ := nonWsTok_iff.mp (h t (List.mem_cons_self t rest))
    rcases rest with _ | ⟨t2, rest2⟩
    · show tokens t = [t]
      unfold tokens
      have e := tokensAux_nonws htc [] []
      simp only [List.append_nil, List.nil_append] at e
      rw [e]
      show (if t = [] then ([] : List (List Char)) else [t]) = [t]
      rw [if_neg htne]
    · rw [joinWords_cons (by simp)]
      unfold tokens
      have e := tokensAux_nonws htc [] (' ' :: joinWords (t2 :: rest2))
      simp only [List.nil_append] at e
      rw [e, tokensAux_space, if_neg htne]
      have ihr : tokensAux [] (joinWords (t2 :: rest2)) = t2 :: rest2 :=
        ih (fun u hu => h u (List.mem_cons_of_mem t hu))
      rw [ihr]

theorem joinWords_ne_nil {ts : List (List Char)} (hne : ts ≠ [])
    (h : ∀ t ∈ ts, t ≠ []) : joinWords ts ≠ [] := by
  rcases ts with _ | ⟨t, rest⟩
  · exact absurd rfl hne
  · rcases rest with _ | ⟨t2, rest2⟩
    · exact h t (List.mem_cons_self t [])
    · rw [joinWords_cons (by simp)]
      intro hc
      exact h t (List.mem_cons_self t _) (List.append_eq_nil.mp hc).1

theorem noDbl_append_left {p l : List Char} (hp : ∀ c ∈ p, c ≠ ' ')
    (h : noDbl l = true) : noDbl (p ++ l) = true := by
  induction p with
  | nil => simpa
  | cons c t ih =>
    have hc : c ≠ ' ' := hp c (List.mem_cons_self c t)
    rw [List.cons_append, noDbl_cons_of_ne _ hc]
    exact ih (fun d hd => hp d (List.mem_cons_of_mem c hd))

theorem joinWords_head {t : List Char} {ts : List (List Char)} (ht : t ≠ []) :
    (joinWords (t :: ts)).head? = t.head? := by
  rcases ts with _ | ⟨t2, rest2⟩
  · rfl
  · rw [joinWords_cons (by simp)]
    exact List.head?_append_of_ne_nil t ht

theorem joinWords_noDbl {ts : List (List Char)}
    (h : ∀ t ∈ ts, nonWsTok t = true) : noDbl (joinWords ts) = true := by
  induction ts with
  | nil => rfl
  | cons t rest ih =>
    obtain ⟨htne, htc⟩ := nonWsTok_iff.mp (h t (List.mem_cons_self t rest))
    have hpne : ∀ c ∈ t, c ≠ ' ' := fun c hc => ne_space_of_not_ws (htc c hc)
    rcases rest with _ | ⟨t2, rest2⟩
    · show noDbl (joinWords [t]) = true
      show noDbl t = true
      have := noDbl_append_left hpne (l := []) rfl
      simpa using this
    · rw [joinWords_cons (by simp)]
      apply noDbl_append_left hpne
      have hrest : ∀ u ∈ t2 :: rest2, nonWsTok u = true :=
        fun u hu => h u (List.mem_cons_of_mem t hu)
      have hJ : noDbl (joinWords (t2 :: rest2)) = true := ih hrest
      obtain ⟨h2ne, h2c⟩ := nonWsTok_iff.mp (hrest t2 (List.mem_cons_self t2 rest2))
      have hhead : (joinWords (t2 :: rest2)).head? = t2.head? := joinWords_head h2ne
      rcases hj : joinWords (t2 :: rest2) with _ | ⟨e, J⟩
      · rfl
      · rw [hj] at hJ hhead
        have he : e ≠ ' ' := by
          rcases t2 with _ | ⟨f, t2r⟩
          · exact absurd rfl h2ne
          · simp at hhead
            subst hhead
            exact ne_space_of_not_ws (h2c _ (List.mem_cons_self _ _))
        show (!(' ' == ' ' && e == ' ') && noDbl (e :: J)) = true
        simp [he, hJ]

theorem joinWords_getLast {ts : List (List Char)}
    (h : ∀ t ∈ ts, nonWsTok t = true) :
    (joinWords ts).getLast? ≠ some ' ' := by
  induction ts with
  | nil => simp [joinWords]
  | cons t rest ih =>
    obtain ⟨htne, htc⟩ := nonWsTok_iff.mp (h t (List.mem_cons_self t rest))
    rcases rest with _ | ⟨t2, rest2⟩
    · show (joinWords [t]).getLast? ≠ some ' '
      show t.getLast? ≠ some ' '
      intro hc
      exact ne_space_of_not_ws
        (htc ' ' (List.mem_of_mem_getLast? (by rw [hc]; rfl))) rfl
    · rw [joinWords_cons (by simp)]
      have hrest : ∀ u ∈ t2 :: rest2, nonWsTok u = true :=
        fun u hu => h u (List.mem_cons_of_mem t hu)
      have hJne : joinWords (t2 :: rest2) ≠ [] :=
        joinWords_ne_nil (by simp) (fun u hu => (nonWsTok_iff.mp (hrest u hu)).1)
      rw [List.getLast?_append_of_ne_nil t (by simp)]
      rcases hj : joinWords (t2 :: rest2) with _ | ⟨e, J⟩
      · exact absurd hj hJne
      · rw [List.getLast?_cons_cons]
        rw [hj] at ih
        exact ih hrest

theorem decodeWord_joinWords {ts : List (List Char)}
    (h : ∀ t ∈ ts, nonWsTok t = true) :
    decodeWord (joinWords ts) = ts.filterMap lookupChar := by
  unfold decodeWord
  rw [tokens_joinWords h]

/- ###################  encode structure  ################ -/

/-- The morse string encodeLoop appends to its accumulator, as a function of
the loop state: ne says whether the accumulator is nonempty, prevSp is the
prev_was_space flag. -/
def encTail : Bool → Bool → List Char → List Char
  | _, _, [] => []
  | ne, prevSp, c :: rest =>
    if toUpperC c = ' ' then sp3 ++ encTail true true rest
    else (if ne && !prevSp then [' '] else [])
           ++ patOf (toUpperC c) ++ encTail true false rest

theorem validChar_some {c : Char} (h : validChar c = true) :
    ∃ p, lookupPat (toUpperC c) = some p := by
  unfold validChar at h
  exact Option.isSome_iff_exists.mp h

theorem validChar_space {c : Char} (h : toUpperC c = ' ') :
    validChar c = true := by
  unfold validChar
  rw [h]
  rfl

theorem encodeLoop_eq {s : List Char} (hv : ∀ c ∈ s, validChar c = true) :
    ∀ morse prevSp,
      encodeLoop s morse prevSp
        = .ok (morse ++ encTail (!morse.isEmpty) prevSp s) := by
  induction s with
  | nil => intro morse prevSp; simp [encodeLoop, encTail]
  | cons c rest ih =>
    intro morse prevSp
    have hvr : ∀ d ∈ rest, validChar d = true :=
      fun d hd => hv d (List.mem_cons_of_mem c hd)
    by_cases hu : toUpperC c = ' '
    · rw [show encodeLoop (c :: rest) morse prevSp
            = encodeLoop rest (morse ++ sp3) true from by
          simp [encodeLoop, hu]]
      rw [ih hvr (morse ++ sp3) true]
      have hne : (morse ++ sp3).isEmpty = false := by
        simp [List.isEmpty_iff, sp3]
      rw [hne]
      have hstate : ∀ b : Bool, encTail b true rest = encTail true true rest := by
        intro b
        rcases rest with _ | ⟨d, r⟩
        · rfl
        · show encTail b true (d :: r) = encTail true true (d :: r)
          by_cases hd : toUpperC d = ' ' <;> simp [encTail, hd]
      rw [show encTail (!morse.isEmpty) prevSp (c :: rest)
            = sp3 ++ encTail true true rest from by simp [encTail, hu]]
      rw [hstate, List.append_assoc]
    · obtain ⟨p, hp⟩ := validChar_some (hv c (List.mem_cons_self c rest))
      have hpne : p ≠ [] := patOf_ne_nil hp
      rw [show encodeLoop (c :: rest) morse prevSp
            = encodeLoop rest
                ((if !morse.isEmpty && !prevSp then morse ++ [' '] else morse) ++ p)
                false from by simp [encodeLoop, hu, hp]]
      rw [ih hvr _ false]
      have hne : ((if !morse.isEmpty && !prevSp then morse ++ [' '] else morse)
          ++ p).isEmpty = false := by
        rcases p with _ | ⟨x, xs⟩
        · exact absurd rfl hpne
        · rcases hif : (if !morse.isEmpty && !prevSp
              then morse ++ [' '] else morse) with _ | ⟨y, ys⟩ <;> simp
      rw [hne]
      rw [show encTail (!morse.isEmpty) prevSp (c :: rest)
            = (if !morse.isEmpty && !prevSp then [' '] else [])
                ++ patOf (toUpperC c) ++ encTail true false rest from by
          simp [encTail, hu]]
      rw [show patOf (toUpperC c) = p from by simp [patOf, hp]]
      by_cases hcond : (!morse.isEmpty && !prevSp) = true
      · rw [if_pos hcond, if_pos hcond]
        simp [List.append_assoc]
      · rw [if_neg hcond, if_neg hcond]
        simp [List.append_assoc]

theorem encode_ok_eq {s : List Char} (hv : ∀ c ∈ s, validChar c = true) :
    encode s = .ok (encTail false false s) := by
  unfold encode
  rw [encodeLoop_eq hv [] false]
  rfl

theorem encodeLoop_ok_valid {s : List Char} :
    ∀ {morse prevSp m}, encodeLoop s morse prevSp = .ok m →
      ∀ c ∈ s, validChar c = true := by
  induction s with
  | nil => intro _ _ _ _ c hc; cases hc
  | cons c rest ih =>
    intro morse prevSp m h d hd
    by_cases hu : toUpperC c = ' '
    · rw [show encodeLoop (c :: rest) morse prevSp
            = encodeLoop rest (morse ++ sp3) true from by
          simp [encodeLoop, hu]] at h
      rcases List.mem_cons.mp hd with hd' | hd'
      · subst hd'; exact validChar_space hu
      · exact ih h d hd'
    · rcases hp : lookupPat (toUpperC c) with _ | p
      · rw [show encodeLoop (c :: rest) morse prevSp
              = .error (MorseErr.unsupportedChar (toUpperC c)) from by
            simp [encodeLoop, hu, hp]] at h
        cases h
      · rw [show encodeLoop (c :: rest) morse prevSp
              = encodeLoop rest
                  ((if !morse.isEmpty && !prevSp then morse ++ [' ']
                    else morse) ++ p) false from by
            simp [encodeLoop, hu, hp]] at h
        rcases List.mem_cons.mp hd with hd' | hd'
        · subst hd'
          unfold validChar
          rw [hp]
          rfl
        · exact ih h d hd'

theorem encodeLoop_error {s : List Char} :
    ∀ {morse prevSp}, s.all validChar = false →
      ∃ e, encodeLoop s morse prevSp = .error e := by
  induction s with
  | nil => intro _ _ h; cases h
  | cons c rest ih =>
    intro morse prevSp h
    by_cases hu : toUpperC c = ' '
    · have hrest : rest.all validChar = false := by
        rcases hall : rest.all validChar with _ | _
        · rfl
        · exfalso
          rw [List.all_cons, validChar_space hu, hall] at h
          cases h
      obtain ⟨e, he⟩ := @ih (morse ++ sp3) true hrest
      exact ⟨e, by simp [encodeLoop, hu, he]⟩
    · rcases hp : lookupPat (toUpperC c) with _ | p
      · exact ⟨MorseErr.unsupportedChar (toUpperC c), by simp [encodeLoop, hu, hp]⟩
      · have hrest : rest.all validChar = false := by
          rcases hall : rest.all validChar with _ | _
          · rfl
          · exfalso
            have hc : validChar c = true := by unfold validChar; rw [hp]; rfl
            rw [List.all_cons, hc, hall] at h
            cases h
        rw [show encodeLoop (c :: rest) morse prevSp
              = encodeLoop rest
                  ((if !morse.isEmpty && !prevSp then morse ++ [' ']
                    else morse) ++ p) false from by simp [encodeLoop, hu, hp]]
        exact ih hrest

/- ###################  word-level structure of encode  ################ -/

/-- A character that contributes a pattern (not a word gap) to the output. -/
def wordChar (c : Char) : Bool := validChar c && !(toUpperC c == ' ')

theorem wordChar_spec {c : Char} (h : wordChar c = true) :
    validChar c = true ∧ toUpperC c ≠ ' ' := by
  unfold wordChar at h
  simp at h
  exact h

theorem pat_nonWsTok {c : Char} (h : wordChar c = true) :
    nonWsTok (patOf (toUpperC c)) = true := by
  obtain ⟨hval, hsp⟩ := wordChar_spec h
  obtain ⟨p, hp⟩ := validChar_some hval
  rw [show patOf (toUpperC c) = p from by simp [patOf, hp]]
  exact nonWsTok_iff.mpr ⟨patOf_ne_nil hp, patOf_not_ws hp hsp⟩

theorem joinWords_eq_flatten (x : List Char) (xs : List (List Char)) :
    joinWords (x :: xs) = x ++ (xs.map (fun y => ' ' :: y)).flatten := by
  induction xs generalizing x with
  | nil => simp [joinWords]
  | cons y r ih =>
    rw [joinWords_cons (by simp), ih y]
    simp

theorem encTail_run1 {w : List Char} (hw : ∀ c ∈ w, wordChar c = true)
    (rest : List Char) :
    encTail true false (w ++ rest)
      = (w.map (fun c => ' ' :: patOf (toUpperC c))).flatten
          ++ encTail true false rest := by
  induction w with
  | nil => simp
  | cons c t ih =>
    have hc := wordChar_spec (hw c (List.mem_cons_self c t))
    have ht : ∀ d ∈ t, wordChar d = true :=
      fun d hd => hw d (List.mem_cons_of_mem c hd)
    rw [List.cons_append,
      show encTail true false (c :: (t ++ rest))
          = [' '] ++ patOf (toUpperC c) ++ encTail true false (t ++ rest) from by
        simp [encTail, hc.2]]
    rw [ih ht]
    simp

theorem encTail_word {w : List Char} (hw : ∀ c ∈ w, wordChar c = true)
    (hne : w ≠ []) (rest : List Char) :
    encTail false false (w ++ rest) = encW w ++ encTail true false rest := by
  rcases w with _ | ⟨c, t⟩
  · exact absurd rfl hne
  · have hc := wordChar_spec (hw c (List.mem_cons_self c t))
    have ht : ∀ d ∈ t, wordChar d = true :=
      fun d hd => hw d (List.mem_cons_of_mem c hd)
    rw [List.cons_append,
      show encTail false false (c :: (t ++ rest))
          = [] ++ patOf (toUpperC c) ++ encTail true false (t ++ rest) from by
        simp [encTail, hc.2]]
    rw [encTail_run1 ht rest]
    unfold encW
    rw [List.map_cons, joinWords_eq_flatten]
    simp [List.map_map, Function.comp_def]

theorem filterMap_eq_map_of_some {α β : Type} {g : α → Option β} {h : α → β}
    {l : List α} (H : ∀ a ∈ l, g a = some (h a)) :
    l.filterMap g = l.map h := by
  induction l with
  | nil => rfl
  | cons a t ih =>
    rw [List.filterMap_cons, H a (List.mem_cons_self a t), List.map_cons,
      ih (fun b hb => H b (List.mem_cons_of_mem a hb))]

theorem encW_tok_all {w : List Char} (hw : ∀ c ∈ w, wordChar c = true) :
    ∀ t ∈ w.map (fun c => patOf (toUpperC c)), nonWsTok t = true := by
  intro t ht
  obtain ⟨c, hc, rfl⟩ := List.mem_map.mp ht
  exact pat_nonWsTok (hw c hc)

theorem decodeWord_encW {w : List Char} (hw : ∀ c ∈ w, wordChar c = true) :
    decodeWord (encW w) = w.map toUpperC := by
  unfold encW
  rw [decodeWord_joinWords (encW_tok_all hw), List.filterMap_map]
  apply filterMap_eq_map_of_some
  intro c hc
  obtain ⟨hval, _⟩ := wordChar_spec (hw c hc)
  obtain ⟨p, hp⟩ := validChar_some hval
  show lookupChar (patOf (toUpperC c)) = some (toUpperC c)
  rw [show patOf (toUpperC c) = p from by simp [patOf, hp]]
  exact lookupChar_patOf hp

theorem encW_noDbl {w : List Char} (hw : ∀ c ∈ w, wordChar c = true) :
    noDbl (encW w) = true :=
  joinWords_noDbl (encW_tok_all hw)

theorem encW_getLast {w : List Char} (hw : ∀ c ∈ w, wordChar c = true) :
    (encW w).getLast? ≠ some ' ' :=
  joinWords_getLast (encW_tok_all hw)

theorem dropWhile_head_false {α : Type} (p : α → Bool) (l : List α) :
    ∀ {c r}, l.dropWhile p = c :: r → p c = false := by
  induction l with
  | nil => intro c r h; cases h
  | cons a t ih =>
    intro c r h
    rw [List.dropWhile_cons] at h
    by_cases ha : p a = true
    · rw [if_pos ha] at h
      exact ih h
    · rw [if_neg ha] at h
      cases h
      simpa using ha

/- ###################  the round trip  ################ -/

theorem decode_nil : decode [] = [] := rfl

theorem decode_encTail :
    ∀ (n : Nat) (s : List Char), s.length ≤ n →
      (∀ c ∈ s, validChar c = true) →
      decode (encTail false false s) = s.map toUpperC := by
  intro n
  induction n with
  | zero =>
    intro s hlen _
    have : s = [] := List.length_eq_zero.mp (Nat.le_zero.mp hlen)
    subst this
    rfl
  | succ n ih =>
    intro s hlen hv
    set q : Char → Bool := fun c => !(toUpperC c == ' ') with hq
    have hsplit : s.takeWhile q ++ s.dropWhile q = s :=
      List.takeWhile_append_dropWhile q s
    set w := s.takeWhile q with hw
    set r := s.dropWhile q with hr
    have hwchar : ∀ c ∈ w, wordChar c = true := by
      intro c hc
      have h1 : q c = true := List.mem_takeWhile_imp hc
      have h2 : c ∈ s := (List.takeWhile_sublist q).mem hc
      unfold wordChar
      rw [hq] at h1
      simp only at h1
      rw [hv c h2, h1]
      rfl
    rcases hrc : r with _ | ⟨c0, rest⟩
    · -- no word gap in s: a single word
      have hsw : s = w := by rw [← hsplit, hrc, List.append_nil]
      rcases hwc : w with _ | ⟨c, t⟩
      · rw [hsw, hwc]; rfl
      · rw [hsw]
        have hwne : w ≠ [] := by rw [hwc]; simp
        have e1 : encTail false false w = encW w := by
          have h2 := encTail_word hwchar hwne []
          rw [List.append_nil] at h2
          rw [h2, show encTail true false [] = ([] : List Char) from rfl,
            List.append_nil]
        rw [e1]
        unfold decode
        rw [split3_single (encW_noDbl hwchar)]
        show decodeWord (encW w) = w.map toUpperC
        exact decodeWord_encW hwchar
    · -- s = w ++ c0 :: rest with toUpperC c0 = ' '
      have hc0 : toUpperC c0 = ' ' := by
        have := dropWhile_head_false q s (by rw [← hr, hrc])
        rw [hq] at this
        simpa using this
      have hs : s = w ++ c0 :: rest := by rw [← hsplit, hrc]
      have hrestmem : ∀ c ∈ rest, c ∈ s := by
        intro c hc
        rw [hs]
        exact List.mem_append_right w (List.mem_cons_of_mem c0 hc)
      have hrestlen : rest.length ≤ n := by
        have : s.length = w.length + (rest.length + 1) := by
          rw [hs]; simp
        omega
      have hstate : ∀ b : Bool, encTail b true rest = encTail false false rest := by
        intro b
        rcases rest with _ | ⟨d, rr⟩
        · rfl
        · by_cases hd : toUpperC d = ' ' <;> simp [encTail, hd]
      have e1 : encTail false false s
          = encW w ++ (sp3 ++ encTail false false rest) := by
        rw [hs]
        rcases hwc : w with _ | ⟨c, t⟩
        · show encTail false false (c0 :: rest) = encW [] ++ _
          rw [show encTail false false (c0 :: rest)
              = sp3 ++ encTail true true rest from by simp [encTail, hc0]]
          rw [hstate true]
          rfl
        · rw [← hwc, encTail_word hwchar (by rw [hwc]; simp) (c0 :: rest)]
          rw [show encTail true false (c0 :: rest)
              = sp3 ++ encTail true true rest from by simp [encTail, hc0]]
          rw [hstate true]
      rw [e1]
      unfold decode
      rw [split3_append _ (encW_noDbl hwchar) (encW_getLast hwchar)]
      rw [List.map_cons]
      rw [joinWords_cons (by
        intro hmap
        exact split3_ne_nil _ (List.map_eq_nil_iff.mp hmap))]
      have ihrest : joinWords ((split3 (encTail false false rest)).map decodeWord)
          = rest.map toUpperC :=
        ih rest hrestlen (fun c hc => hv c (hrestmem c hc))
      rw [ihrest, decodeWord_encW hwchar, hs]
      rw [List.map_append, List.map_cons, hc0]

/- ###################  claim C1  ################ -/

/-- Helper for the spec-side collapse function: squeeze every run of spaces
to a single space. -/
def squeezeAux (inSp : Bool) : List Char → List Char
  | [] => []
  | c :: rest =>
    if c = ' ' then
      if inSp then squeezeAux true rest else ' ' :: squeezeAux true rest
    else c :: squeezeAux false rest

/-- Modelled from the claim's words (spec §8.1), for comparison with the
code: collapse every internal (non-leading, non-trailing) maximal run of
literal spaces to a single space. -/
def collapseInternalWs (s : List Char) : List Char :=
  let lead := s.takeWhile (fun c => c == ' ')
  let rest := s.dropWhile (fun c => c == ' ')
  let revRest := rest.reverse
  let trail := revRest.takeWhile (fun c => c == ' ')
  let mid := (revRest.dropWhile (fun c => c == ' ')).reverse
  lead ++ squeezeAux false mid ++ trail

/-- C1, counterexample: on s = "A  B" (two internal spaces, all characters in
the alphabet) the claimed identity decode(encode(s)) =
uppercase(collapse_internal_literal_whitespace(s)) fails: the code preserves
the double space (each three-space group is a word boundary and the empty
word re-emits a space), while the claimed right-hand side collapses it. -/
theorem C1_counterexample :
    encode "A  B".toList = .ok ".-      -...".toList
    ∧ decode ".-      -...".toList = "A  B".toList
    ∧ (collapseInternalWs "A  B".toList).map toUpperC = "A B".toList
    ∧ decode ".-      -...".toList
        ≠ (collapseInternalWs "A  B".toList).map toUpperC :=
  ⟨rfl, by decide, by decide, by decide⟩

/-- C1 (amended): the round trip is exact — for every input on which encode
succeeds, decoding the encoding yields the uppercased input with ALL literal
whitespace preserved (no collapsing): decode(encode(s)) = uppercase(s). -/
theorem C1_roundtrip_exact {s m : List Char} (h : encode s = .ok m) :
    decode m = s.map toUpperC := by
  have hv : ∀ c ∈ s, validChar c = true := by
    unfold encode at h
    exact encodeLoop_ok_valid h
  have he := encode_ok_eq hv
  rw [h] at he
  have hm : m = encTail false false s := by injection he
  subst hm
  exact decode_encTail s.length s le_rfl hv

/-- C1 witness: the amended round trip applied to the concrete input "a B"
(lowercase folded, one literal space). -/
theorem C1_roundtrip_exact_witness :
    encode "a B".toList = .ok ".-   -...".toList
    ∧ decode ".-   -...".toList = ("a B".toList).map toUpperC :=
  ⟨rfl, C1_roundtrip_exact (s := "a B".toList) rfl⟩

/- ###################  claim C3  ################ -/

/-- C3: encode fails (with the unsupported-character error) exactly when the
input contains a character whose uppercased form is not in the 39-entry
alphabet.  Atomicity holds by construction of the embedding: the Except
result carries either the complete Morse string or the error, never a
prefix (the C++ local accumulator is discarded when the exception
propagates past the caller). -/
theorem C3_encode_error_iff (s : List Char) :
    (∃ e, encode s = .error e) ↔ ∃ c ∈ s, validChar c = false := by
  constructor
  · rintro ⟨e, he⟩
    by_contra hno
    push_neg at hno
    have hv : ∀ c ∈ s, validChar c = true := by
      intro c hc
      rcases hb : validChar c with _ | _
      · exact absurd hb (hno c hc)
      · rfl
    rw [encode_ok_eq hv] at he
    cases he
  · rintro ⟨c, hc, hcv⟩
    have hall : s.all validChar = false := by
      rcases h : s.all validChar with _ | _
      · rfl
      · exfalso
        have := List.all_eq_true.mp h c hc
        rw [hcv] at this
        cases this
    unfold encode
    exact encodeLoop_error hall

/- ###################  claim C4  ################ -/

/-- C4: decode never fails (it is a total function: the C++ code guards every
map access with count, so no throw path exists), and on a word made of
whitespace-separated tokens it returns exactly the characters of the tokens
that are in the table — unknown tokens are silently dropped. -/
theorem C4_decode_drops_junk {ts : List (List Char)}
    (h : ∀ t ∈ ts, nonWsTok t = true) :
    decode (joinWords ts) = ts.filterMap lookupChar := by
  unfold decode
  rw [split3_single (joinWords_noDbl h)]
  show decodeWord (joinWords ts) = ts.filterMap lookupChar
  exact decodeWord_joinWords h

/-- C4 witness: junk tokens "xyz" and "...---..." mixed with the valid token
".-" decode to exactly ['A']. -/
theorem C4_decode_drops_junk_witness :
    decode (joinWords ["xyz".toList, ".-".toList, "...---...".toList])
      = (["xyz".toList, ".-".toList, "...---...".toList]).filterMap lookupChar
    ∧ decode "xyz .- ...---...".toList = ['A'] :=
  ⟨C4_decode_drops_junk (by decide), by decide⟩

/- ###################  claim C8  ################ -/

/-- C8, counterexample: the input "xyz   .-" has a first word segment
containing only the unrecognized token "xyz", yet decode emits a LEADING
space before the decoded 'A' — contradicting the claim that no leading
artifact space is ever emitted. -/
theorem C8_counterexample :
    decode "xyz   .-".toList = " A".toList
    ∧ (decode "xyz   .-".toList).head? = some ' ' :=
  ⟨by decide, by decide⟩

/-- C8 (amended): decode joins consecutive word segments with exactly one
space, unconditionally — one space per separator, regardless of what the
segments decode to.  Hence a leading (trailing) space appears exactly when
the first (last) segment decodes to nothing, e.g. when it is empty or
contains only unrecognized tokens. -/
theorem C8_join_single_space {a : List Char} (b : List Char)
    (h1 : noDbl a = true) (h2 : a.getLast? ≠ some ' ') :
    decode (a ++ (sp3 ++ b)) = decodeWord a ++ ' ' :: decode b := by
  unfold decode
  rw [split3_append b h1 h2, List.map_cons]
  exact joinWords_cons (by
    intro hmap
    exact split3_ne_nil _ (List.map_eq_nil_iff.mp hmap))

/-- C8 witness: the join rule applied to the concrete segments "xyz" and
".-", exhibiting the leading separator space. -/
theorem C8_join_single_space_witness :
    decode ("xyz".toList ++ (sp3 ++ ".-".toList))
      = decodeWord "xyz".toList ++ ' ' :: decode ".-".toList
    ∧ decodeWord "xyz".toList = [] :=
  ⟨C8_join_single_space (a := "xyz".toList) ".-".toList (by decide) (by decide),
   by decide⟩

/- ###################  ToneRenderer: WavProcessor::generateSamples  ##########

The program instantiates WavProcessor<> with its default SampleType = int8_t
(morse3.cpp:119), so MAX_AMP = 127.  addSine/addSilence compute their sample
counts as static_cast<int>(duration * 44100) in IEEE double:
  int(0.1 * 44100)         = 4410   (fl(0.1)*44100 rounds to 4410.000000000001)
  int((0.1 * 3) * 44100)   = 13230  (fl(0.30000000000000004)*44100 rounds to
                                     13230.000000000002)
  int(0.3 * 44100)         = 13230  (fl(0.3)*44100 rounds to exactly 13230.0)
  int(0.7 * 44100)         = 30869  (fl(0.7)*44100 rounds to
                                     30869.999999999996; truncation drops to
                                     30869, one below the real-valued floor)
The sine burst contents pass through std::sin (floating point), so the two
burst sample lists are taken as parameters dotT/dashT; every property proved
below holds for all burst contents. -/

/-- addSilence count for SYMBOL_SPACE = 0.1 s. -/
def symSpaceN : Nat := 4410

/-- addSilence count for SYMBOL_SPACE * 3 = 0.3 s (one-space run). -/
def letterGapN : Nat := 13230

/-- addSilence count for WORD_SPACE = 0.7 s: 30869, NOT 30870, because
fl(0.7)·44100 = 30869.999999999996 and the int cast truncates. -/
def wordGapN : Nat := 30869

/-- A run of n zero samples (addSilence). -/
def zeros (n : Nat) : List Int := List.replicate n 0

/-- The silence a completed space run of length k contributes
(morse3.cpp:150-154): exactly one space gives the 0.3 s gap, three or more
give the 0.7 s gap, anything else (0 or 2) gives nothing. -/
def gapFor (k : Nat) : List Int :=
  if k = 1 then zeros letterGapN else if 3 ≤ k then zeros wordGapN else []

/-- The scan loop of generateSamples (morse3.cpp:133-158).  k is the length
of the space run being collected; the C++ inner while drains a whole run and
appends its gap before the next character is examined, which is exactly what
emitting gapFor k on the first non-space (or at the end) does. -/
def genAux (dotT dashT : List Int) (k : Nat) : List Char → List Int
  | [] => gapFor k
  | c :: rest =>
    if c = '.' then
      gapFor k ++ (dotT ++ (zeros symSpaceN ++ genAux dotT dashT 0 rest))
    else if c = '-' then
      gapFor k ++ (dashT ++ (zeros symSpaceN ++ genAux dotT dashT 0 rest))
    else if c = ' ' then genAux dotT dashT (k + 1) rest
    else gapFor k ++ genAux dotT dashT 0 rest

/-- WavProcessor::generateSamples, parameterized by the two sine bursts. -/
def generateSamples (dotT dashT : List Int) (morse : List Char) : List Int :=
  genAux dotT dashT 0 morse

/-- Lengths of the maximal runs of spaces in a morse string, in order
(helper state: k = length of the run being scanned). -/
def runsAux (k : Nat) : List Char → List Nat
  | [] => if k = 0 then [] else [k]
  | c :: rest =>
    if c = ' ' then runsAux (k + 1) rest
    else if k = 0 then runsAux 0 rest else k :: runsAux 0 rest

/-- Lengths of the maximal space runs of a list. -/
def spaceRuns (l : List Char) : List Nat := runsAux 0 l

/- ###################  ToneDetector: WavProcessor::decodeSamples  ###########

State machine of morse3.cpp:212-258.  MAX_AMP / 100 = 127 / 100 = 1 is the
threshold.  The silence / tone durations the C++ computes as
(i - start) / double(sr) and compares against 0.79, 0.39 and
(0.1 + 0.3) / 2 = 0.2 are modelled by the exact rational comparisons
100·n ≥ 79·sr, 100·n ≥ 39·sr and 5·n < sr.  These agree with the double
comparisons for every integer n and sr: at the exact boundaries
(n/sr = 0.79, 0.39, 0.2) both sides of the C++ comparison round to the same
double, and away from them the distance |n/sr − threshold| ≥ 1/(100·sr) far
exceeds the double rounding error.  The debounce threshold
static_cast<int>(sr * 0.001) equals sr / 1000 (fl(0.001) exceeds 1/1000 by
≈ 2·10⁻²⁰, so the truncated product is the exact floor for every
representable sr). -/

/-- Maximum amplitude of the int8_t sample type. -/
def maxAmp : Int := 127

/-- The activity threshold MAX_AMP / 100 (= 1 for int8_t). -/
def detThreshold : Int := maxAmp / 100

/-- Debounce run length: static_cast<int>(sr * 0.001). -/
def debounceOf (sr : Nat) : Nat := sr / 1000

/-- The gap emitted for a pending silence of n samples on a confirmed
transition into a tone (morse3.cpp:229-234). -/
def gapChars (sr n : Nat) : List Char :=
  if 79 * sr ≤ 100 * n then sp3 else if 39 * sr ≤ 100 * n then [' '] else []

/-- Detector state: the accumulated morse string, the in_tone flag, the
tone_start index, the pending silence_start index (-1 modelled as none) and
the debounce counter. -/
structure DetSt where
  morse : List Char
  inTone : Bool
  toneStart : Nat
  silenceStart : Option Nat
  deb : Nat
deriving Repr, DecidableEq

/-- One iteration of the decodeSamples loop at index i, where active is the
classification |samples[i]| > threshold. -/
def detStep (sr db : Nat) (i : Nat) (active : Bool) (st : DetSt) : DetSt :=
  if active then
    if st.inTone then { st with deb := 0 }
    else if db ≤ st.deb + 1 then
      { morse := st.morse ++ (match st.silenceStart with
                               | some s => gapChars sr (i - s)
                               | none => []),
        inTone := true, toneStart := i, silenceStart := none, deb := 0 }
    else { st with deb := st.deb + 1 }
  else
    if st.inTone then
      if db ≤ st.deb + 1 then
        { st with
          morse := st.morse ++ [if 5 * (i - st.toneStart) < sr then '.' else '-'],
          inTone := false, silenceStart := some i, deb := 0 }
      else { st with deb := st.deb + 1 }
    else { st with deb := 0 }

/-- The decodeSamples loop, indexed from i. -/
def detLoop (sr db : Nat) : Nat → DetSt → List Int → DetSt
  | _, st, [] => st
  | i, st, v :: rest =>
    detLoop sr db (i + 1) (detStep sr db i (decide (detThreshold < |v|)) st) rest

/-- Initial detector state (morse3.cpp:213-218). -/
def initSt : DetSt :=
  { morse := [], inTone := false, toneStart := 0, silenceStart := none, deb := 0 }

/-- WavProcessor::decodeSamples. -/
def decodeSamples (samples : List Int) (sr : Nat) : List Char :=
  (detLoop sr (debounceOf sr) 0 initSt samples).morse

/- ###################  WaveformContainer: WavProcessor::loadWav  ############ -/

/-- Little-endian value of a byte list. -/
def leVal (bs : List Nat) : Nat := bs.foldr (fun b acc => b + 256 * acc) 0

/-- The len bytes at offset off, as a little-endian value (missing bytes read
as 0, matching the zero-initialized C++ buffer). -/
def field (bytes : List Nat) (off len : Nat) : Nat :=
  leVal ((bytes.drop off).take len)

/-- The parsed 44-byte WavHeader (morse3.cpp:15-31; packed layout, offsets
0/4/8/12/16/20/22/24/28/32/34/36/40). -/
structure WavHdr where
  riffId : List Nat
  riffSize : Nat
  waveId : List Nat
  fmtId : List Nat
  fmtSize : Nat
  audioFormat : Nat
  numChannels : Nat
  sampleRate : Nat
  byteRate : Nat
  blockAlign : Nat
  bitsPerSample : Nat
  dataId : List Nat
  dataSize : Nat
deriving Repr, DecidableEq

def parseHeader (bytes : List Nat) : WavHdr :=
  { riffId := bytes.take 4
    riffSize := field bytes 4 4
    waveId := (bytes.drop 8).take 4
    fmtId := (bytes.drop 12).take 4
    fmtSize := field bytes 16 4
    audioFormat := field bytes 20 2
    numChannels := field bytes 22 2
    sampleRate := field bytes 24 4
    byteRate := field bytes 28 4
    blockAlign := field bytes 32 2
    bitsPerSample := field bytes 34 2
    dataId := (bytes.drop 36).take 4
    dataSize := field bytes 40 4 }

/-- Two's-complement reading of a bps-byte little-endian value. -/
def toSigned (bps v : Nat) : Int :=
  if 2 ^ (8 * bps - 1) ≤ v then (v : Int) - 2 ^ (8 * bps) else (v : Int)

/-- The payload bytes available for the sample vector: the region after the
44-byte header, limited to the n·bps bytes the read asks for. -/
def wavPayload (bps : Nat) (bytes : List Nat) : List Nat :=
  (bytes.drop 44).take (((parseHeader bytes).dataSize / bps) * bps)

/-- The sample buffer: available payload bytes, zero-padded to n·bps bytes
(the C++ vector is zero-initialized and a short file leaves the rest 0). -/
def wavBuf (bps : Nat) (bytes : List Nat) : List Nat :=
  wavPayload bps bytes
    ++ List.replicate
        (((parseHeader bytes).dataSize / bps) * bps
          - (wavPayload bps bytes).length) 0

/-- The sample-reading part of WavProcessor::loadWav (morse3.cpp:179-192):
parse the header from the first 44 bytes, reject a bits-per-sample that is
not 8·sizeof(SampleType), otherwise read dataSize / sizeof(SampleType)
samples from the payload region after the header. -/
def readWav (bps : Nat) (bytes : List Nat) : Except String (List Int) :=
  if (parseHeader bytes).bitsPerSample ≠ 8 * bps then
    .error "Unsupported sample type in WAV file."
  else
    .ok ((List.range ((parseHeader bytes).dataSize / bps)).map fun j =>
      toSigned bps (leVal (((wavBuf bps bytes).drop (j * bps)).take bps)))

/-- WavProcessor::loadWav: read the samples, then run the detector at the
header's sample rate (morse3.cpp:194). -/
def loadWav (bps : Nat) (bytes : List Nat) : Except String (List Char) :=
  (readWav bps bytes).map (fun s => decodeSamples s (parseHeader bytes).sampleRate)

/- ###################  claim C5: renderer gap structure  ################ -/

theorem genAux_spaces (dotT dashT : List Int) (j : Nat) :
    ∀ (k : Nat) (b : List Char),
      genAux dotT dashT k (List.replicate j ' ' ++ b)
        = genAux dotT dashT (k + j) b := by
  induction j with
  | zero => intro k b; simp
  | succ j ih =>
    intro k b
    rw [List.replicate_succ, List.cons_append]
    rw [show genAux dotT dashT k (' ' :: (List.replicate j ' ' ++ b))
          = genAux dotT dashT (k + 1) (List.replicate j ' ' ++ b) from by
        simp [genAux]]
    rw [ih (k + 1) b]
    congr 1
    omega

theorem genAux_flush (dotT dashT : List Int) {b : List Char}
    (hb : b.head? ≠ some ' ') (k : Nat) :
    genAux dotT dashT k b = gapFor k ++ genAux dotT dashT 0 b := by
  rcases b with _ | ⟨c, r⟩
  · show gapFor k = gapFor k ++ gapFor 0
    simp [gapFor]
  · have hc : c ≠ ' ' := by simpa using hb
    by_cases h1 : c = '.'
    · simp [genAux, h1, gapFor]
    · by_cases h2 : c = '-'
      · simp [genAux, h1, h2, gapFor]
      · simp [genAux, h1, h2, hc, gapFor]

theorem genAux_append (dotT dashT : List Int) :
    ∀ {a : List Char}, a ≠ [] → a.getLast? ≠ some ' ' →
      ∀ (k : Nat) (r : List Char),
        genAux dotT dashT k (a ++ r)
          = genAux dotT dashT k a ++ genAux dotT dashT 0 r := by
  intro a
  induction a with
  | nil => intro h; exact absurd rfl h
  | cons c t ih =>
    intro _ hl k r
    rcases t with _ | ⟨d, t2⟩
    · have hc : c ≠ ' ' := by simpa using hl
      by_cases h1 : c = '.'
      · simp [genAux, h1, gapFor, List.append_assoc]
      · by_cases h2 : c = '-'
        · simp [genAux, h1, h2, gapFor, List.append_assoc]
        · simp [genAux, h1, h2, hc, gapFor, List.append_assoc]
    · have ih2 := ih (by simp)
        (by rw [← List.getLast?_cons_cons (a := c)]; exact hl)
      rw [List.cons_append]
      by_cases h1 : c = '.'
      · rw [show genAux dotT dashT k (c :: ((d :: t2) ++ r))
              = gapFor k ++ (dotT ++ (zeros symSpaceN
                  ++ genAux dotT dashT 0 ((d :: t2) ++ r))) from by
            simp [genAux, h1]]
        rw [show genAux dotT dashT k (c :: (d :: t2))
              = gapFor k ++ (dotT ++ (zeros symSpaceN
                  ++ genAux dotT dashT 0 (d :: t2))) from by
            simp [genAux, h1]]
        rw [ih2 0 r]
        simp [List.append_assoc]
      · by_cases h2 : c = '-'
        · rw [show genAux dotT dashT k (c :: ((d :: t2) ++ r))
                = gapFor k ++ (dashT ++ (zeros symSpaceN
                    ++ genAux dotT dashT 0 ((d :: t2) ++ r))) from by
              simp [genAux, h1, h2]]
          rw [show genAux dotT dashT k (c :: (d :: t2))
                = gapFor k ++ (dashT ++ (zeros symSpaceN
                    ++ genAux dotT dashT 0 (d :: t2))) from by
              simp [genAux, h1, h2]]
          rw [ih2 0 r]
          simp [List.append_assoc]
        · by_cases h3 : c = ' '
          · rw [show genAux dotT dashT k (c :: ((d :: t2) ++ r))
                  = genAux dotT dashT (k + 1) ((d :: t2) ++ r) from by
                simp [genAux, h1, h2, h3]]
            rw [show genAux dotT dashT k (c :: (d :: t2))
                  = genAux dotT dashT (k + 1) (d :: t2) from by
                simp [genAux, h1, h2, h3]]
            exact ih2 (k + 1) r
          · rw [show genAux dotT dashT k (c :: ((d :: t2) ++ r))
                  = gapFor k ++ genAux dotT dashT 0 ((d :: t2) ++ r) from by
                simp [genAux, h1, h2, h3]]
            rw [show genAux dotT dashT k (c :: (d :: t2))
                  = gapFor k ++ genAux dotT dashT 0 (d :: t2) from by
                simp [genAux, h1, h2, h3]]
            rw [ih2 0 r]
            simp [List.append_assoc]

/-- C5 (amended, part of the claim corrected): in generateSamples a maximal
space run of length exactly 1 appends 13230 zero samples (= int(0.3·44100)),
a run of length ≥ 3 appends 30869 zero samples (one LESS than the
real-valued floor(0.7·44100) = 30870, because fl(0.7)·44100 =
30869.999999999996 truncates to 30869), a run of exactly 2 appends nothing,
and any character other than '.', '-', ' ' appends nothing.  This holds for
every burst parameterization. -/
theorem C5_space_run_silences (dotT dashT : List Int) :
    (∀ (a : List Char) (k : Nat) (b : List Char),
        a.getLast? ≠ some ' ' → b.head? ≠ some ' ' →
        generateSamples dotT dashT (a ++ (List.replicate k ' ' ++ b))
          = generateSamples dotT dashT a
              ++ ((if k = 1 then zeros 13230
                   else if 3 ≤ k then zeros 30869 else [])
                  ++ generateSamples dotT dashT b))
    ∧ (∀ (c : Char) (r : List Char), c ≠ '.' → c ≠ '-' → c ≠ ' ' →
        generateSamples dotT dashT (c :: r) = generateSamples dotT dashT r) := by
  constructor
  · intro a k b hla hb
    unfold generateSamples
    have hgap : gapFor k
        = if k = 1 then zeros 13230 else if 3 ≤ k then zeros 30869 else [] := rfl
    rcases ha : a with _ | ⟨c, t⟩
    · rw [List.nil_append, genAux_spaces dotT dashT k 0 b, Nat.zero_add,
        genAux_flush dotT dashT hb k, hgap]
      rfl
    · rw [← ha, genAux_append dotT dashT (by rw [ha]; simp) hla 0 _,
        genAux_spaces dotT dashT k 0 b, Nat.zero_add,
        genAux_flush dotT dashT hb k, hgap]
  · intro c r h1 h2 h3
    unfold generateSamples
    simp [genAux, h1, h2, h3, gapFor]

/-- C5 counterexample: the claim's word-gap count floor(0.7·44100) = 30870 is
wrong; rendering a bare three-space run produces 30869 zero samples. -/
theorem C5_counterexample :
    (generateSamples [] [] sp3).length = 30869 ∧ (30869 : Nat) ≠ 30870 := by
  constructor
  · have e : generateSamples [] [] sp3 = zeros wordGapN := rfl
    rw [e]
    show (List.replicate wordGapN (0 : Int)).length = 30869
    rw [List.length_replicate]
    rfl
  · decide

/-- C5 witness: the amended silence equation at the concrete inputs
"." ++ " " ++ "-" (run of one) and 'x' :: "." (non-morse character). -/
theorem C5_space_run_silences_witness :
    (generateSamples [] [] (['.'] ++ (List.replicate 1 ' ' ++ ['-']))
      = generateSamples [] [] ['.']
          ++ ((if (1 : Nat) = 1 then zeros 13230
               else if 3 ≤ (1 : Nat) then zeros 30869 else [])
              ++ generateSamples [] [] ['-']))
    ∧ generateSamples [] [] ('x' :: ['.']) = generateSamples [] [] ['.'] :=
  ⟨(C5_space_run_silences [] []).1 ['.'] 1 ['-'] (by decide) (by decide),
   (C5_space_run_silences [] []).2 'x' ['.'] (by decide) (by decide) (by decide)⟩

/- ###################  claim C10: space runs of encoder output  ############ -/

theorem runsAux_spaces (j : Nat) :
    ∀ (k : Nat) (b : List Char),
      runsAux k (List.replicate j ' ' ++ b) = runsAux (k + j) b := by
  induction j with
  | zero => intro k b; simp
  | succ j ih =>
    intro k b
    rw [List.replicate_succ, List.cons_append]
    rw [show runsAux k (' ' :: (List.replicate j ' ' ++ b))
          = runsAux (k + 1) (List.replicate j ' ' ++ b) from by simp [runsAux]]
    rw [ih (k + 1) b]
    congr 1
    omega

theorem runsAux_flush {b : List Char} (hb : b.head? ≠ some ' ') (k : Nat) :
    runsAux k b = (if k = 0 then [] else [k]) ++ runsAux 0 b := by
  rcases b with _ | ⟨c, r⟩
  · show (if k = 0 then ([] : List Nat) else [k]) = _
    simp [runsAux]
  · have hc : c ≠ ' ' := by simpa using hb
    by_cases hk : k = 0
    · simp [runsAux, hc, hk]
    · simp [runsAux, hc, hk]

theorem runsAux_append :
    ∀ {a : List Char}, a ≠ [] → a.getLast? ≠ some ' ' →
      ∀ (k : Nat) (r : List Char),
        runsAux k (a ++ r) = runsAux k a ++ runsAux 0 r := by
  intro a
  induction a with
  | nil => intro h; exact absurd rfl h
  | cons c t ih =>
    intro _ hl k r
    rcases t with _ | ⟨d, t2⟩
    · have hc : c ≠ ' ' := by simpa using hl
      by_cases hk : k = 0
      · simp [runsAux, hc, hk]
      · simp [runsAux, hc, hk]
    · have ih2 := ih (by simp)
        (by rw [← List.getLast?_cons_cons (a := c)]; exact hl)
      rw [List.cons_append]
      by_cases hc : c = ' '
      · rw [show runsAux k (c :: ((d :: t2) ++ r))
              = runsAux (k + 1) ((d :: t2) ++ r) from by simp [runsAux, hc]]
        rw [show runsAux k (c :: (d :: t2))
              = runsAux (k + 1) (d :: t2) from by simp [runsAux, hc]]
        exact ih2 (k + 1) r
      · by_cases hk : k = 0
        · rw [show runsAux k (c :: ((d :: t2) ++ r))
                = runsAux 0 ((d :: t2) ++ r) from by simp [runsAux, hc, hk]]
          rw [show runsAux k (c :: (d :: t2))
                = runsAux 0 (d :: t2) from by simp [runsAux, hc, hk]]
          exact ih2 0 r
        · rw [show runsAux k (c :: ((d :: t2) ++ r))
                = k :: runsAux 0 ((d :: t2) ++ r) from by simp [runsAux, hc, hk]]
          rw [show runsAux k (c :: (d :: t2))
                = k :: runsAux 0 (d :: t2) from by simp [runsAux, hc, hk]]
          rw [ih2 0 r]
          rfl

/-- In a string with no two adjacent spaces and no trailing space, every
maximal space run has length exactly 1. -/
theorem spaceRuns_ones :
    ∀ {l : List Char}, noDbl l = true → l.getLast? ≠ some ' ' →
      ∀ x ∈ spaceRuns l, x = 1 := by
  intro l
  induction l with
  | nil => intro _ _ x hx; cases hx
  | cons c rest ih =>
    intro hn hl x hx
    by_cases hc : c = ' '
    · subst hc
      rcases rest with _ | ⟨d, r2⟩
      · exact absurd (show [' '].getLast? = some ' ' from rfl) hl
      · have hd : d ≠ ' ' := by
          intro hd
          rw [hd] at hn
          simp [noDbl] at hn
        have e1 : spaceRuns (' ' :: d :: r2) = runsAux 1 (d :: r2) := by
          simp [spaceRuns, runsAux]
        rw [e1, runsAux_flush (by simpa using hd) 1] at hx
        rcases List.mem_append.mp hx with h1 | h1
        · simpa using h1
        · exact ih (noDbl_tail hn) (by rwa [List.getLast?_cons_cons] at hl) x h1
    · have e1 : spaceRuns (c :: rest) = runsAux 0 rest := by
        simp [spaceRuns, runsAux, hc]
      rw [e1] at hx
      rcases rest with _ | ⟨d, r2⟩
      · cases hx
      · exact ih (noDbl_tail hn) (by rwa [List.getLast?_cons_cons] at hl) x hx

theorem encTail_reset (b : Bool) (s : List Char) :
    encTail b true s = encTail false false s := by
  rcases s with _ | ⟨d, r⟩
  · rfl
  · by_cases hd : toUpperC d = ' ' <;> simp [encTail, hd]

theorem sp3_replicate : sp3 = List.replicate 3 ' ' := rfl

theorem encTail_spaces {js : List Char} (hjs : ∀ c ∈ js, toUpperC c = ' ') :
    ∀ rest, encTail false false (js ++ rest)
      = List.replicate (3 * js.length) ' ' ++ encTail false false rest := by
  induction js with
  | nil => intro rest; simp
  | cons c t ih =>
    intro rest
    have hc := hjs c (List.mem_cons_self c t)
    rw [List.cons_append,
      show encTail false false (c :: (t ++ rest))
          = sp3 ++ encTail true true (t ++ rest) from by simp [encTail, hc]]
    rw [encTail_reset true (t ++ rest),
      ih (fun d hd => hjs d (List.mem_cons_of_mem c hd)) rest]
    rw [List.length_cons, sp3_replicate, ← List.append_assoc,
      ← List.replicate_add]
    congr 2
    omega

theorem encTail_spaces_any {js : List Char} (hjs : ∀ c ∈ js, toUpperC c = ' ')
    (hne : js ≠ []) (b p : Bool) :
    ∀ rest, encTail b p (js ++ rest)
      = List.replicate (3 * js.length) ' ' ++ encTail false false rest := by
  rcases js with _ | ⟨c, t⟩
  · exact absurd rfl hne
  · intro rest
    have hc := hjs c (List.mem_cons_self c t)
    rw [List.cons_append,
      show encTail b p (c :: (t ++ rest))
          = sp3 ++ encTail true true (t ++ rest) from by simp [encTail, hc]]
    rw [encTail_reset true (t ++ rest),
      encTail_spaces (fun d hd => hjs d (List.mem_cons_of_mem c hd)) rest]
    rw [List.length_cons, sp3_replicate, ← List.append_assoc,
      ← List.replicate_add]
    congr 2
    omega

theorem encW_ne_nil {w : List Char} (hw : ∀ c ∈ w, wordChar c = true)
    (hne : w ≠ []) : encW w ≠ [] := by
  unfold encW
  apply joinWords_ne_nil
  · simpa using hne
  · intro t ht
    exact (nonWsTok_iff.mp (encW_tok_all hw t ht)).1

/-- Head of the encoding of a string whose first character is a word
character: it is a pattern symbol, not a space. -/
theorem encTail_head_ne_sp {s : List Char} (hv : ∀ c ∈ s, validChar c = true)
    (hhead : ∀ d, s.head? = some d → toUpperC d ≠ ' ') :
    (encTail false false s).head? ≠ some ' ' := by
  rcases s with _ | ⟨d, r⟩
  · simp [encTail]
  · have hd : toUpperC d ≠ ' ' := hhead d rfl
    obtain ⟨p, hp⟩ := validChar_some (hv d (List.mem_cons_self d r))
    rw [show encTail false false (d :: r)
        = patOf (toUpperC d) ++ encTail true false r from by simp [encTail, hd]]
    rw [show patOf (toUpperC d) = p from by simp [patOf, hp]]
    rw [List.head?_append_of_ne_nil p (patOf_ne_nil hp)]
    intro hcon
    have hmem : ' ' ∈ p := List.mem_of_mem_head? (by rw [hcon]; rfl)
    rcases patOf_symbols hp hd ' ' hmem with h | h <;> cases h

/-- The space-run invariant of the encoder output. -/
theorem encTail_spaceRuns :
    ∀ (n : Nat) (s : List Char), s.length ≤ n →
      (∀ c ∈ s, validChar c = true) →
      ∀ x ∈ spaceRuns (encTail false false s),
        (x = 1 ∨ (0 < x ∧ 3 ∣ x)) ∧ x ≠ 2 := by
  intro n
  induction n with
  | zero =>
    intro s hlen _ x hx
    have : s = [] := List.length_eq_zero.mp (Nat.le_zero.mp hlen)
    subst this
    cases hx
  | succ n ih =>
    intro s hlen hv x hx
    set q : Char → Bool := fun c => !(toUpperC c == ' ') with hq
    have hsplit : s.takeWhile q ++ s.dropWhile q = s :=
      List.takeWhile_append_dropWhile q s
    set w := s.takeWhile q with hwdef
    set r := s.dropWhile q with hrdef
    have hwchar : ∀ c ∈ w, wordChar c = true := by
      intro c hc
      have h1 : q c = true := List.mem_takeWhile_imp hc
      have h2 : c ∈ s := (List.takeWhile_sublist q).mem hc
      unfold wordChar
      rw [hq] at h1
      simp only at h1
      rw [hv c h2, h1]
      rfl
    rcases hrc : r with _ | ⟨c0, rest0⟩
    · -- single word, no gap characters
      have hsw : s = w := by rw [← hsplit, hrc, List.append_nil]
      rcases hwc : w with _ | ⟨c, t⟩
      · rw [hsw, hwc] at hx
        cases hx
      · rw [hsw] at hx
        have hwne : w ≠ [] := by rw [hwc]; simp
        have e1 : encTail false false w = encW w := by
          have h2 := encTail_word hwchar hwne []
          rw [List.append_nil] at h2
          rw [h2, show encTail true false [] = ([] : List Char) from rfl,
            List.append_nil]
        rw [e1] at hx
        have hone := spaceRuns_ones (encW_noDbl hwchar) (encW_getLast hwchar) x hx
        subst hone
        exact ⟨Or.inl rfl, by decide⟩
    · -- s = w ++ js ++ rest2 with js a nonempty run of gap characters
      set qs : Char → Bool := fun c => toUpperC c == ' ' with hqs
      have hc0 : toUpperC c0 = ' ' := by
        have := dropWhile_head_false q s (by rw [← hrdef, hrc])
        rw [hq] at this
        simpa using this
      set js := r.takeWhile qs with hjsdef
      set rest2 := r.dropWhile qs with hrest2def
      have hjssplit : js ++ rest2 = r := List.takeWhile_append_dropWhile qs r
      have hjs : ∀ c ∈ js, toUpperC c = ' ' := by
        intro c hc
        have := List.mem_takeWhile_imp hc
        rw [hqs] at this
        simpa using this
      have hqs0 : qs c0 = true := by rw [hqs]; simp [hc0]
      have hjsne : js ≠ [] := by
        rw [hjsdef, hrc, List.takeWhile_cons, if_pos hqs0]
        simp
      have hrest2head : ∀ d, rest2.head? = some d → toUpperC d ≠ ' ' := by
        intro d hd
        rcases he : rest2 with _ | ⟨d', r3⟩
        · rw [he] at hd; cases hd
        · rw [he] at hd
          have := dropWhile_head_false qs r (by rw [← hrest2def, he])
          rw [hqs] at this
          simp at hd
          subst hd
          simpa using this
      have hs : s = w ++ (js ++ rest2) := by rw [hjssplit, hsplit]
      have hrest2mem : ∀ c ∈ rest2, c ∈ s := by
        intro c hc
        have h1 : c ∈ r := (List.dropWhile_sublist qs).mem hc
        rw [hrdef] at h1
        exact (List.dropWhile_sublist q).mem h1
      have hrest2len : rest2.length ≤ n := by
        have e1 : s.length = w.length + (js.length + rest2.length) := by
          rw [hs]; simp
        have e2 : 1 ≤ js.length := by
          rcases js with _ | ⟨u, v⟩
          · exact absurd rfl hjsne
          · simp
        omega
      have hvrest2 : ∀ c ∈ rest2, validChar c = true :=
        fun c hc => hv c (hrest2mem c hc)
      set M := encTail false false rest2 with hM
      have hMhead : M.head? ≠ some ' ' := encTail_head_ne_sp hvrest2 hrest2head
      have hxr : x ∈ spaceRuns (encW w)
          ∨ x ∈ (3 * js.length) :: spaceRuns M := by
        rcases hwc : w with _ | ⟨cw, tw⟩
        · rw [hs, hwc, List.nil_append,
            encTail_spaces_any hjs hjsne false false rest2] at hx
          right
          rw [show spaceRuns (List.replicate (3 * js.length) ' ' ++ M)
              = runsAux (0 + 3 * js.length) M from runsAux_spaces _ 0 M] at hx
          rw [Nat.zero_add, runsAux_flush hMhead (3 * js.length)] at hx
          have h3 : ¬(3 * js.length = 0) := by
            rcases js with _ | ⟨u, v⟩
            · exact absurd rfl hjsne
            · simp
          rw [if_neg h3] at hx
          simpa [spaceRuns] using hx
        · have hwne : w ≠ [] := by rw [hwc]; simp
          rw [hs, encTail_word hwchar hwne (js ++ rest2)] at hx
          rw [show encTail true false (js ++ rest2)
              = List.replicate (3 * js.length) ' ' ++ M from
            encTail_spaces_any hjs hjsne true false rest2] at hx
          rw [show spaceRuns (encW w
                ++ (List.replicate (3 * js.length) ' ' ++ M))
              = runsAux 0 (encW w)
                ++ runsAux 0 (List.replicate (3 * js.length) ' ' ++ M) from
            runsAux_append (encW_ne_nil hwchar hwne) (encW_getLast hwchar) 0 _] at hx
          rcases List.mem_append.mp hx with h1 | h1
          · rw [hwc] at h1
            exact Or.inl h1
          · right
            rw [runsAux_spaces _ 0 M, Nat.zero_add,
              runsAux_flush hMhead (3 * js.length)] at h1
            have h3 : ¬(3 * js.length = 0) := by
              rcases js with _ | ⟨u, v⟩
              · exact absurd rfl hjsne
              · simp
            rw [if_neg h3] at h1
            simpa [spaceRuns] using h1
      rcases hxr with h1 | h1
      · have := spaceRuns_ones (encW_noDbl hwchar) (encW_getLast hwchar) x h1
        subst this
        exact ⟨Or.inl rfl, by decide⟩
      · rcases List.mem_cons.mp h1 with h2 | h2
        · subst h2
          refine ⟨Or.inr ⟨?_, ⟨js.length, by ring⟩⟩, ?_⟩
          · rcases js with _ | ⟨u, v⟩
            · exact absurd rfl hjsne
            · simp
          · intro hcon
            rcases js with _ | ⟨u, v⟩
            · exact absurd rfl hjsne
            · simp at hcon
              omega
        · exact ih rest2 hrest2len hvrest2 x h2

/-- C10: every maximal space run in a successfully encoded Morse string has
length 1 (intra-word letter separator) or a positive multiple of 3 (one
three-space group per literal input space), and in particular never length
2 - so the renderer's no-op branch for two-space runs is unreachable on
encoder output. -/
theorem C10_encoder_space_runs {s m : List Char} (h : encode s = .ok m) :
    ∀ k ∈ spaceRuns m, (k = 1 ∨ (0 < k ∧ 3 ∣ k)) ∧ k ≠ 2 := by
  have hv : ∀ c ∈ s, validChar c = true := by
    unfold encode at h
    exact encodeLoop_ok_valid h
  have he := encode_ok_eq hv
  rw [h] at he
  have hm : m = encTail false false s := by injection he
  subst hm
  exact encTail_spaceRuns s.length s le_rfl hv

/-- C10 witness: the encoder output for "a b" has exactly one maximal space
run, of length 3. -/
theorem C10_encoder_space_runs_witness :
    spaceRuns ".-   -...".toList = [3]
    ∧ ((3 = 1 ∨ (0 < 3 ∧ 3 ∣ 3)) ∧ 3 ≠ 2) :=
  ⟨by decide, C10_encoder_space_runs (s := "a b".toList) rfl 3 (by decide)⟩

/- ###################  claim C6: silence classification  ################ -/

theorem gapChars_rat {sr : Nat} (hsr : 0 < sr) (n : Nat) :
    gapChars sr n
      = (if (79 : ℚ) / 100 ≤ (n : ℚ) / (sr : ℚ) then sp3
         else if (39 : ℚ) / 100 ≤ (n : ℚ) / (sr : ℚ) then [' '] else []) := by
  have hsrq : (0 : ℚ) < (sr : ℚ) := by exact_mod_cast hsr
  have h79 : ((79 : ℚ) / 100 ≤ (n : ℚ) / (sr : ℚ)) ↔ 79 * sr ≤ 100 * n := by
    rw [div_le_div_iff₀ (by norm_num) hsrq]
    constructor
    · intro h
      have h2 : ((79 * sr : Nat) : ℚ) ≤ ((100 * n : Nat) : ℚ) := by
        push_cast
        linarith
      exact_mod_cast h2
    · intro h
      have h2 : ((79 * sr : Nat) : ℚ) ≤ ((100 * n : Nat) : ℚ) := by
        exact_mod_cast h
      push_cast at h2
      linarith
  have h39 : ((39 : ℚ) / 100 ≤ (n : ℚ) / (sr : ℚ)) ↔ 39 * sr ≤ 100 * n := by
    rw [div_le_div_iff₀ (by norm_num) hsrq]
    constructor
    · intro h
      have h2 : ((39 * sr : Nat) : ℚ) ≤ ((100 * n : Nat) : ℚ) := by
        push_cast
        linarith
      exact_mod_cast h2
    · intro h
      have h2 : ((39 * sr : Nat) : ℚ) ≤ ((100 * n : Nat) : ℚ) := by
        exact_mod_cast h
      push_cast at h2
      linarith
  unfold gapChars
  by_cases hA : 79 * sr ≤ 100 * n
  · rw [if_pos hA, if_pos (h79.mpr hA)]
  · rw [if_neg hA, if_neg (fun hc => hA (h79.mp hc))]
    by_cases hB : 39 * sr ≤ 100 * n
    · rw [if_pos hB, if_pos (h39.mpr hB)]
    · rw [if_neg hB, if_neg (fun hc => hB (h39.mp hc))]

/-- C6: at a confirmed transition into a tone (debounce reached, silence
pending from index s), the state machine appends three spaces when the
pending silence lasted at least 0.79 s, one space when it lasted at least
0.39 s but less than 0.79 s, and nothing otherwise; durations are
(i − s)/sampleRate seconds. -/
theorem C6_silence_classification {sr : Nat} (hsr : 0 < sr) (st : DetSt)
    (i s : Nat) (hton : st.inTone = false)
    (hdeb : debounceOf sr ≤ st.deb + 1) (hsil : st.silenceStart = some s) :
    (detStep sr (debounceOf sr) i true st).morse
      = st.morse
          ++ (if (79 : ℚ) / 100 ≤ ((i - s : Nat) : ℚ) / (sr : ℚ) then sp3
              else if (39 : ℚ) / 100 ≤ ((i - s : Nat) : ℚ) / (sr : ℚ)
              then [' '] else [])
    ∧ (detStep sr (debounceOf sr) i true st).inTone = true := by
  have e : detStep sr (debounceOf sr) i true st
      = { morse := st.morse ++ gapChars sr (i - s), inTone := true,
          toneStart := i, silenceStart := none, deb := 0 } := by
    unfold detStep
    simp [hton, hsil, hdeb]
  rw [e]
  exact ⟨by simp [gapChars_rat hsr], rfl⟩

/-- C6 witness: at sr = 44100 with the debounce counter one short of the
threshold, a pending silence of 34839 samples (exactly 0.79 s) emits the
three-space inter-word gap. -/
theorem C6_silence_classification_witness :
    ((detStep 44100 (debounceOf 44100) 34839 true
        { morse := [], inTone := false, toneStart := 0,
          silenceStart := some 0, deb := 43 }).morse
      = [] ++ (if (79 : ℚ) / 100 ≤ ((34839 - 0 : Nat) : ℚ) / (44100 : ℚ)
               then sp3
               else if (39 : ℚ) / 100 ≤ ((34839 - 0 : Nat) : ℚ) / (44100 : ℚ)
               then [' '] else [])
      ∧ (detStep 44100 (debounceOf 44100) 34839 true
          { morse := [], inTone := false, toneStart := 0,
            silenceStart := some 0, deb := 43 }).inTone = true) :=
  C6_silence_classification (by decide)
    { morse := [], inTone := false, toneStart := 0,
      silenceStart := some 0, deb := 43 }
    34839 0 rfl (by decide) rfl

/- ###################  claim C7: debounce rejects short blips  ############ -/

theorem detLoop_append (sr db : Nat) :
    ∀ (xs ys : List Int) (i : Nat) (st : DetSt),
      detLoop sr db i st (xs ++ ys)
        = detLoop sr db (i + xs.length) (detLoop sr db i st xs) ys := by
  intro xs
  induction xs with
  | nil => intro ys i st; simp [detLoop]
  | cons v t ih =>
    intro ys i st
    show detLoop sr db (i + 1) _ (t ++ ys) = _
    rw [ih ys (i + 1) _]
    show _ = detLoop sr db (i + (t.length + 1)) (detLoop sr db (i + 1) _ t) ys
    congr 1
    omega

theorem detLoop_active_run (sr db : Nat) :
    ∀ (vs : List Int) (st : DetSt) (i : Nat),
      st.inTone = false → (∀ v ∈ vs, detThreshold < |v|) →
      st.deb + vs.length < db →
      detLoop sr db i st vs = { st with deb := st.deb + vs.length } := by
  intro vs
  induction vs with
  | nil =>
    intro st i _ _ _
    show st = _
    cases st
    simp
  | cons v t ih =>
    intro st i h1 h2 h3
    show detLoop sr db (i + 1)
        (detStep sr db i (decide (detThreshold < |v|)) st) t = _
    have hv : decide (detThreshold < |v|) = true := by
      simp only [decide_eq_true_eq]
      exact h2 v (List.mem_cons_self v t)
    rw [hv]
    have hlt : ¬(db ≤ st.deb + 1) := by
      simp only [List.length_cons] at h3
      omega
    have e : detStep sr db i true st = { st with deb := st.deb + 1 } := by
      unfold detStep
      simp [h1, hlt]
    rw [e]
    have hr := ih { st with deb := st.deb + 1 } (i + 1)
      (by simp [h1])
      (fun u hu => h2 u (List.mem_cons_of_mem v hu))
      (by simp only [List.length_cons] at h3; simp; omega)
    rw [hr]
    cases st
    simp
    omega

/-- C7: while the detector is in the silence state with a clear debounce
counter, a run of active samples shorter than the debounce minimum
(floor(sampleRate·0.001) samples) followed by a quiet sample leaves the
state exactly as it was: no transition into the tone state is committed, no
symbol is contributed, and the debounce counter (which counted the run up
to its length) resets to zero when the classification reverts. -/
theorem C7_short_blip_ignored (sr : Nat) (vs : List Int) (q0 : Int)
    (st : DetSt) (i : Nat)
    (hst : st.inTone = false) (hdeb : st.deb = 0)
    (hact : ∀ v ∈ vs, detThreshold < |v|)
    (hlen : vs.length < debounceOf sr)
    (hq : |q0| ≤ detThreshold) :
    detLoop sr (debounceOf sr) i st (vs ++ [q0]) = st
    ∧ (detLoop sr (debounceOf sr) i st vs).morse = st.morse
    ∧ (detLoop sr (debounceOf sr) i st vs).inTone = false
    ∧ (detLoop sr (debounceOf sr) i st vs).deb = vs.length := by
  have hrun := detLoop_active_run sr (debounceOf sr) vs st i hst hact (by omega)
  have hqd : decide (detThreshold < |q0|) = false := by
    simp only [decide_eq_false_iff_not]
    exact not_lt.mpr hq
  have h2 : detLoop sr (debounceOf sr) i st (vs ++ [q0]) = st := by
    rw [detLoop_append, hrun]
    show detLoop sr (debounceOf sr) (i + vs.length + 1)
        (detStep sr (debounceOf sr) (i + vs.length)
          (decide (detThreshold < |q0|)) { st with deb := st.deb + vs.length })
        [] = st
    rw [hqd]
    show detStep sr (debounceOf sr) (i + vs.length) false
        { st with deb := st.deb + vs.length } = st
    unfold detStep
    cases st
    subst hdeb
    simp_all
  refine ⟨h2, ?_, ?_, ?_⟩ <;> rw [hrun] <;> simp [hdeb, hst]

/-- C7 witness: at sr = 44100 (debounce minimum 44) a 43-sample active blip
followed by a quiet sample leaves the detector in its initial state. -/
theorem C7_short_blip_ignored_witness :
    detLoop 44100 (debounceOf 44100) 0 initSt
        (List.replicate 43 (100 : Int) ++ [0]) = initSt
    ∧ (detLoop 44100 (debounceOf 44100) 0 initSt
        (List.replicate 43 (100 : Int))).morse = initSt.morse
    ∧ (detLoop 44100 (debounceOf 44100) 0 initSt
        (List.replicate 43 (100 : Int))).inTone = false
    ∧ (detLoop 44100 (debounceOf 44100) 0 initSt
        (List.replicate 43 (100 : Int))).deb
        = (List.replicate 43 (100 : Int)).length :=
  C7_short_blip_ignored 44100 (List.replicate 43 (100 : Int)) 0 initSt 0
    rfl rfl (by decide) (by decide) (by decide)

/- ###################  claim C9: container read  ################ -/

/-- C9: the read operation fails (with the unsupported-sample-type error)
exactly when the parsed header's bits-per-sample differs from 8× the
configured sample byte width, and on success returns exactly
dataSize / bytesPerSample samples, read from the payload region after the
44-byte header (wavBuf). -/
theorem C9_read_header_checked (bps : Nat) (bytes : List Nat) :
    ((∃ e, readWav bps bytes = .error e)
        ↔ (parseHeader bytes).bitsPerSample ≠ 8 * bps)
    ∧ ∀ s, readWav bps bytes = .ok s →
        s.length = (parseHeader bytes).dataSize / bps := by
  unfold readWav
  by_cases h : (parseHeader bytes).bitsPerSample = 8 * bps
  · rw [if_neg (fun hc => hc h)]
    constructor
    · constructor
      · rintro ⟨e, he⟩
        cases he
      · intro hne
        exact absurd h hne
    · intro s hs
      have hs2 : (List.range ((parseHeader bytes).dataSize / bps)).map
          (fun j => toSigned bps (leVal (((wavBuf bps bytes).drop (j * bps)).take bps)))
          = s := by
        injection hs
      rw [← hs2, List.length_map, List.length_range]
  · rw [if_pos h]
    constructor
    · constructor
      · intro _
        exact h
      · intro _
        exact ⟨_, rfl⟩
    · intro s hs
      cases hs

/-- A concrete well-formed 8-bit container: a 44-byte header declaring
bits-per-sample 8, sample rate 44100 and dataSize 3, followed by payload
bytes 5, 200, 7. -/
def wbytes : List Nat :=
  [82, 73, 70, 70, 39, 0, 0, 0, 87, 65, 86, 69,
   102, 109, 116, 32, 16, 0, 0, 0, 1, 0, 1, 0,
   68, 172, 0, 0, 68, 172, 0, 0, 1, 0, 8, 0,
   100, 97, 116, 97, 3, 0, 0, 0, 5, 200, 7]

/-- C9 witness: the concrete container decodes to the three signed samples
[5, -56, 7], and the length equation of C9 instantiated there. -/
theorem C9_read_header_checked_witness :
    readWav 1 wbytes = .ok [5, -56, 7]
    ∧ ([5, -56, 7] : List Int).length = (parseHeader wbytes).dataSize / 1
    ∧ readWav 2 wbytes = .error "Unsupported sample type in WAV file." :=
  ⟨rfl, (C9_read_header_checked 1 wbytes).2 [5, -56, 7] rfl, rfl⟩
